import Mathlib

/- Formal model of the time-series normalization and correlation engine of the
   hypercrypto-dashboard repository (src/Next.js) together with its basic-auth
   middleware (src/middleware.ts).  JavaScript strings are modelled as lists of
   characters and JavaScript numbers as exact values: a finite rational, a
   signed infinity, or NaN. -/

namespace HyperCrypto

/-- Model of a JavaScript number: a finite rational (exact stand-in for a
finite double), a signed infinity (the flag is true for positive infinity),
or NaN. -/
inductive JSNum where
  | fin (q : ℚ)
  | inf (pos : Bool)
  | nan
  deriving DecidableEq

/-- JavaScript addition on the number model. -/
def JSNum.add : JSNum → JSNum → JSNum
  | .fin a, .fin b => .fin (a + b)
  | .fin _, .inf s => .inf s
  | .inf s, .fin _ => .inf s
  | .inf s, .inf t => if s = t then .inf s else .nan
  | _, _ => .nan

/-- JavaScript negation on the number model. -/
def JSNum.neg : JSNum → JSNum
  | .fin a => .fin (-a)
  | .inf s => .inf (!s)
  | .nan => .nan

/-- JavaScript subtraction on the number model. -/
def JSNum.sub (a b : JSNum) : JSNum := a.add b.neg

/-- JavaScript multiplication on the number model. -/
def JSNum.mul : JSNum → JSNum → JSNum
  | .fin a, .fin b => .fin (a * b)
  | .fin a, .inf s => if a = 0 then .nan else if 0 < a then .inf s else .inf (!s)
  | .inf s, .fin a => if a = 0 then .nan else if 0 < a then .inf s else .inf (!s)
  | .inf s, .inf t => .inf (s = t)
  | _, _ => .nan

/-- JavaScript division on the number model (division of a nonzero finite
number by zero yields a signed infinity, zero by zero yields NaN). -/
def JSNum.div : JSNum → JSNum → JSNum
  | .fin a, .fin b =>
      if b = 0 then (if a = 0 then .nan else if 0 < a then .inf true else .inf false)
      else .fin (a / b)
  | .inf s, .fin b => if b = 0 then .inf s else if 0 < b then .inf s else .inf (!s)
  | .fin _, .inf _ => .fin 0
  | .inf _, .inf _ => .nan
  | _, _ => .nan

/-- JavaScript isFinite on the number model. -/
def JSNum.isFinite : JSNum → Bool
  | .fin _ => true
  | _ => false

/-- Lexicographic strict comparison of JavaScript strings (code-unit order,
a strict prefix sorts first), as used by the default Array sort. -/
def strLt : List Char → List Char → Bool
  | [], [] => false
  | [], _ :: _ => true
  | _ :: _, [] => false
  | a :: as, b :: bs => if a < b then true else if b < a then false else strLt as bs

/-- Non-strict string order derived from strict comparison. -/
def strLe (a b : List Char) : Bool := !(strLt b a)

/-- A time-series point as in src/Next.js: an ISO date string and a numeric
value. -/
structure SeriesPoint where
  date : List Char
  value : JSNum
  deriving DecidableEq

/-- One step of the bucket-building loop of toAnnual and toMonthly: push the
value onto bucket k, creating the bucket at the end on first occurrence
(JavaScript object keys enumerate in insertion order). -/
def addToBuckets : List (List Char × List JSNum) → List Char → JSNum →
    List (List Char × List JSNum)
  | [], k, v => [(k, [v])]
  | (k', vs) :: rest, k, v =>
      if k' = k then (k', vs ++ [v]) :: rest else (k', vs) :: addToBuckets rest k v

/-- The bucket record built by iterating over all points in order. -/
def buildBuckets (key : SeriesPoint → List Char) (points : List SeriesPoint) :
    List (List Char × List JSNum) :=
  points.foldl (fun bs p => addToBuckets bs (key p) p.value) []

/-- Resampling method of toAnnual: arithmetic mean or final observation. -/
inductive Method where
  | avg
  | last
  deriving DecidableEq

/-- Value taken from one bucket: the arithmetic mean of the bucket for avg,
the final element for last.  Buckets are never empty, so the defaults for an
empty list are unreachable. -/
def bucketValue : Method → List JSNum → JSNum
  | .avg, arr => (arr.foldl JSNum.add (.fin 0)).div (.fin arr.length)
  | .last, arr => arr.getLastD .nan

/-- toAnnual from src/Next.js: bucket the points by the first four characters
of the date (the calendar year), take the bucket value, date the result at
year end, and sort ascending by date string. -/
def toAnnual (points : List SeriesPoint) (method : Method) : List SeriesPoint :=
  List.insertionSort (fun a b => strLe a.date b.date = true)
    ((buildBuckets (fun p => p.date.take 4) points).map
      (fun b => SeriesPoint.mk (b.1 ++ ['-', '1', '2', '-', '3', '1'])
        (bucketValue method b.2)))

/-- toMonthly from src/Next.js: bucket the points by the first seven
characters of the date (year and month), take the final value of each bucket,
date the result at day 28, and sort ascending by date string. -/
def toMonthly (points : List SeriesPoint) : List SeriesPoint :=
  List.insertionSort (fun a b => strLe a.date b.date = true)
    ((buildBuckets (fun p => p.date.take 7) points).map
      (fun b => SeriesPoint.mk (b.1 ++ ['-', '2', '8'])
        (bucketValue Method.last b.2)))

/-- Number() applied to the first four characters of a date string, as in the
yoyPct loop: the empty string parses to zero, an all-digit string to its
decimal value, anything else to NaN (modelled as none). -/
def jsYear (d : List Char) : Option ℕ :=
  let s := d.take 4
  if s.isEmpty then some 0
  else if s.all Char.isDigit then
    some (s.foldl (fun n c => n * 10 + (c.toNat - 48)) 0)
  else none

/-- Condition under which the yoyPct loop emits a point: both year prefixes
parse as numbers and the current year equals the previous year plus one. -/
def nextYear (prev curr : SeriesPoint) : Bool :=
  match jsYear prev.date, jsYear curr.date with
  | some yp, some yc => decide (yc = yp + 1)
  | _, _ => false

/-- Year-over-year percent-change value exactly as the yoyPct loop computes
it: (current / previous - 1) * 100 in JavaScript arithmetic. -/
def yoyVal (prev curr : JSNum) : JSNum :=
  ((curr.div prev).sub (.fin 1)).mul (.fin 100)

/-- Body of the yoyPct loop with prev holding the point at index i - 1. -/
def yoyAux (prev : SeriesPoint) : List SeriesPoint → List SeriesPoint
  | [] => []
  | curr :: rest =>
      if nextYear prev curr then
        SeriesPoint.mk curr.date (yoyVal prev.value curr.value) :: yoyAux curr rest
      else yoyAux curr rest

/-- yoyPct from src/Next.js: for each consecutive pair of points whose years
are exactly one apart, emit the percent change dated at the current point. -/
def yoyPct : List SeriesPoint → List SeriesPoint
  | [] => []
  | p :: rest => yoyAux p rest

/-- Helper for JavaScript Set semantics: keep each date not seen before,
threading the set of dates already seen. -/
def setDedupAux (seen : List (List Char)) : List (List Char) → List (List Char)
  | [] => []
  | d :: rest =>
      if d ∈ seen then setDedupAux seen rest
      else d :: setDedupAux (d :: seen) rest

/-- JavaScript Set semantics for a list of date strings: deduplicate, keeping
the first occurrence of each element in insertion order. -/
def setDedup (l : List (List Char)) : List (List Char) := setDedupAux [] l

/-- One row of the aligned table: the date plus one cell per series key, in
the key order of the input record; none models the null cell. -/
structure AlignedRow where
  date : List Char
  cells : List (List Char × Option JSNum)
  deriving DecidableEq

/-- alignByDate from src/Next.js: the set union of all dates across the input
series, sorted ascending by date string, with one exact-date lookup per
series key and null (none) for an absent point. -/
def alignByDate (series : List (List Char × List SeriesPoint)) : List AlignedRow :=
  (List.insertionSort (fun a b => strLe a b = true)
      (setDedup (((series.map Prod.snd).flatten).map SeriesPoint.date))).map
    (fun d => AlignedRow.mk d
      (series.map (fun kv =>
        (kv.1, (kv.2.find? (fun p => decide (p.date = d))).map SeriesPoint.value))))

/-- Property access r[k] on an aligned row combined with the validity test of
correlationMatrix: the rational value when the cell holds a finite number,
none otherwise (absent key, null cell, or non-finite value). -/
def finiteCell (r : AlignedRow) (k : List Char) : Option ℚ :=
  match (r.cells.find? (fun kv => decide (kv.1 = k))).map Prod.snd with
  | some (some (.fin q)) => some q
  | _ => none

/-- The row filter at the top of correlationMatrix: rows whose cell is a
finite number for every selected key simultaneously. -/
def validRows (rows : List AlignedRow) (keys : List (List Char)) : List AlignedRow :=
  rows.filter (fun r => keys.all (fun k => (finiteCell r k).isSome))

/-- Column of values for one key, drawn from the common valid row subset. -/
def colVals (rows : List AlignedRow) (keys : List (List Char)) (k : List Char) : List ℚ :=
  (validRows rows keys).map (fun r => (finiteCell r k).getD 0)

/-- The mean computed inside corr: the sum of the whole list divided by the
sample count n (the two agree on length in every call site). -/
def sampleMean (l : List ℚ) (n : ℕ) : ℚ := l.sum / (n : ℚ)

/-- The num accumulator of the corr loop over indices below n. -/
def corrNum (a b : List ℚ) (n : ℕ) : ℚ :=
  (((a.take n).zip (b.take n)).map
    (fun xy => (xy.1 - sampleMean a n) * (xy.2 - sampleMean b n))).sum

/-- The da (and db) accumulator of the corr loop over indices below n. -/
def corrDA (a : List ℚ) (n : ℕ) : ℚ :=
  ((a.take n).map (fun x => (x - sampleMean a n) * (x - sampleMean a n))).sum

/-- The inner corr of correlationMatrix: Pearson correlation of two sample
lists.  The NaN results of the source (fewer than three samples, or a zero
denominator guarded by the den === 0 test) are modelled as none; a defined
correlation is a real number. -/
noncomputable def corr (a b : List ℚ) : Option ℝ :=
  if min a.length b.length < 3 then none
  else
    if Real.sqrt ((corrDA a (min a.length b.length) : ℝ) *
        (corrDA b (min a.length b.length) : ℝ)) = 0 then none
    else
      some ((corrNum a b (min a.length b.length) : ℝ) /
        Real.sqrt ((corrDA a (min a.length b.length) : ℝ) *
          (corrDA b (min a.length b.length) : ℝ)))

/-- correlationMatrix from src/Next.js: filter the table once for the rows
valid for all keys, extract one column per key over that common subset, and
take corr of every pair of columns. -/
noncomputable def correlationMatrix (rows : List AlignedRow) (keys : List (List Char)) :
    List (List (Option ℝ)) :=
  let cols := keys.map (fun k => colVals rows keys k)
  cols.map (fun a => cols.map (fun b => corr a b))

/-- Entry (i, j) of a matrix given as nested lists (none outside bounds). -/
def matEntry (m : List (List (Option ℝ))) (i j : ℕ) : Option ℝ :=
  (m.getD i []).getD j none

/-- JavaScript String.prototype.split with a single-character separator. -/
def jsSplit (sep : Char) : List Char → List (List Char)
  | [] => [[]]
  | c :: rest =>
      if c = sep then [] :: jsSplit sep rest
      else
        match jsSplit sep rest with
        | [] => [[c]]
        | s :: ss => (c :: s) :: ss

/-- Result of the basic-auth middleware from src/middleware.ts: a 401
response, a 403 response, or passing the request through. -/
inductive MwResult where
  | unauthorized
  | forbidden
  | next
  deriving DecidableEq

/-- The scheme expected by the middleware. -/
def basicChars : List Char := ['B', 'a', 's', 'i', 'c']

/-- middleware from src/middleware.ts, with the base64 decoder and the two
configured environment values taken as parameters.  The authorization header
is none when absent; an empty header string is falsy in JavaScript, so it
takes the same branch as a missing header. -/
def middleware (decode : List Char → List Char) (envUser envPass : List Char)
    (auth : Option (List Char)) : MwResult :=
  match auth with
  | none => .unauthorized
  | some a =>
      if a = [] then .unauthorized
      else
        let parts := jsSplit ' ' a
        let scheme := parts.headD []
        let encoded := parts.getD 1 []
        if scheme ≠ basicChars ∨ encoded = [] then .unauthorized
        else
          let credParts := jsSplit ':' (decode encoded)
          let user := credParts.headD []
          if user = envUser ∧ credParts[1]? = some envPass then .next
          else .forbidden

/-- Worded from the spec: usable credentials are supplied exactly when a
header is present, its scheme part is Basic, and the encoded part after the
first space is nonempty. -/
def hasCredentials (auth : Option (List Char)) : Prop :=
  match auth with
  | none => False
  | some a =>
      (jsSplit ' ' a).headD [] = basicChars ∧ (jsSplit ' ' a).getD 1 [] ≠ []

/-- Worded from the spec: the supplied credentials match the configured
shared secret exactly when the decoded part before the first colon equals the
configured user and the part between the first and second colons exists and
equals the configured password. -/
def credMatch (decode : List Char → List Char) (envUser envPass : List Char)
    (auth : Option (List Char)) : Prop :=
  match auth with
  | none => False
  | some a =>
      let credParts := jsSplit ':' (decode ((jsSplit ' ' a).getD 1 []))
      credParts.headD [] = envUser ∧ credParts[1]? = some envPass

/-- The emission function of the yoyPct loop on one consecutive pair. -/
def yoyEmit (pc : SeriesPoint × SeriesPoint) : Option SeriesPoint :=
  if nextYear pc.1 pc.2 then
    some (SeriesPoint.mk pc.2.date (yoyVal pc.1.value pc.2.value))
  else none

/-- Lookup of the first bucket with the given key. -/
def bucketLookup (bs : List (List Char × List JSNum)) (k : List Char) :
    Option (List JSNum) :=
  (bs.find? (fun b => decide (b.1 = k))).map Prod.snd

/-- Worded from the spec: the centered sum of squares of a sample list
around its arithmetic mean. -/
def centeredSS (l : List ℚ) : ℚ :=
  (l.map (fun x => (x - l.sum / (l.length : ℚ)) * (x - l.sum / (l.length : ℚ)))).sum

theorem strLt_irrefl : ∀ a : List Char, strLt a a = false
  | [] => rfl
  | c :: cs => by simp [strLt, strLt_irrefl cs]

theorem strLt_trans : ∀ a b c : List Char,
    strLt a b = true → strLt b c = true → strLt a c = true
  | [], [], _, h, _ => Bool.noConfusion h
  | [], _ :: _, [], _, h => Bool.noConfusion h
  | [], _ :: _, _ :: _, _, _ => rfl
  | _ :: _, [], _, h, _ => Bool.noConfusion h
  | _ :: _, _ :: _, [], _, h => Bool.noConfusion h
  | a :: as, b :: bs, c :: cs, h₁, h₂ => by
      simp only [strLt] at h₁ h₂ ⊢
      rcases lt_trichotomy a b with hab | hab | hab
      · rcases lt_trichotomy b c with hbc | hbc | hbc
        · simp [lt_trans hab hbc]
        · subst hbc; simp [hab]
        · rw [if_neg (lt_asymm hbc), if_pos hbc] at h₂; exact Bool.noConfusion h₂
      · subst hab
        rw [if_neg (lt_irrefl a), if_neg (lt_irrefl a)] at h₁
        rcases lt_trichotomy a c with hac | hac | hac
        · simp [hac]
        · subst hac
          rw [if_neg (lt_irrefl a), if_neg (lt_irrefl a)] at h₂ ⊢
          exact strLt_trans as bs cs h₁ h₂
        · rw [if_neg (lt_asymm hac), if_pos hac] at h₂; exact Bool.noConfusion h₂
      · rw [if_neg (lt_asymm hab), if_pos hab] at h₁; exact Bool.noConfusion h₁

theorem strLt_asymm {a b : List Char} (h : strLt a b = true) : strLt b a = false := by
  by_contra hc
  have hba : strLt b a = true := by
    cases hv : strLt b a with
    | false => exact absurd hv hc
    | true => rfl
  have := strLt_trans a b a h hba
  rw [strLt_irrefl] at this
  exact Bool.noConfusion this

theorem strLt_connex : ∀ a b : List Char,
    strLt a b = false → strLt b a = false → a = b
  | [], [], _, _ => rfl
  | [], _ :: _, h, _ => Bool.noConfusion h
  | _ :: _, [], _, h => Bool.noConfusion h
  | a :: as, b :: bs, h₁, h₂ => by
      simp only [strLt] at h₁ h₂
      rcases lt_trichotomy a b with hab | hab | hab
      · rw [if_pos hab] at h₁; exact Bool.noConfusion h₁
      · subst hab
        rw [if_neg (lt_irrefl a), if_neg (lt_irrefl a)] at h₁ h₂
        rw [strLt_connex as bs h₁ h₂]
      · rw [if_pos hab] at h₂; exact Bool.noConfusion h₂

theorem strLe_trans {a b c : List Char}
    (h₁ : strLe a b = true) (h₂ : strLe b c = true) : strLe a c = true := by
  simp only [strLe, Bool.not_eq_true'] at h₁ h₂ ⊢
  by_contra hc
  have hca : strLt c a = true := by
    cases hv : strLt c a with
    | false => exact absurd hv hc
    | true => rfl
  cases hab : strLt a b with
  | true => exact Bool.noConfusion (h₂ ▸ strLt_trans c a b hca hab)
  | false => exact Bool.noConfusion ((strLt_connex a b hab h₁ ▸ hca).symm.trans h₂)

theorem strLe_total (a b : List Char) : (strLe a b || strLe b a) = true := by
  simp only [strLe, Bool.not_eq_true']
  cases hab : strLt a b with
  | false => simp
  | true => simp [strLt_asymm hab]

theorem strLe_antisymm {a b : List Char}
    (h₁ : strLe a b = true) (h₂ : strLe b a = true) : a = b := by
  simp only [strLe, Bool.not_eq_true'] at h₁ h₂
  exact strLt_connex a b h₂ h₁

theorem strLt_of_le_of_ne {a b : List Char}
    (h₁ : strLe a b = true) (h₂ : a ≠ b) : strLt a b = true := by
  simp only [strLe, Bool.not_eq_true'] at h₁
  cases hv : strLt a b with
  | true => rfl
  | false => exact absurd (strLt_connex a b hv h₁) h₂

theorem yoyAux_eq (prev : SeriesPoint) (l : List SeriesPoint) :
    yoyAux prev l = ((prev :: l).zip l).filterMap yoyEmit := by
  induction l generalizing prev with
  | nil => rfl
  | cons curr rest ih =>
      simp only [yoyAux, List.zip_cons_cons, List.filterMap_cons, yoyEmit]
      rw [ih curr]
      by_cases h : nextYear prev curr = true
      · simp [h]
      · simp [h]

theorem yoyPct_eq (points : List SeriesPoint) :
    yoyPct points = (points.zip points.tail).filterMap yoyEmit := by
  cases points with
  | nil => rfl
  | cons p rest => exact yoyAux_eq p rest

theorem mem_zip_tail {α : Type} : ∀ (l₁ l₂ : List α) (x y : α),
    (x, y) ∈ (l₁ ++ x :: y :: l₂).zip (l₁ ++ x :: y :: l₂).tail
  | [], _, _, _ => by simp [List.zip_cons_cons]
  | a :: l₁, l₂, x, y => by
      have ih := mem_zip_tail l₁ l₂ x y
      cases hl : l₁ ++ x :: y :: l₂ with
      | nil => simp at hl
      | cons b rest =>
          rw [hl] at ih
          simp only [List.cons_append, hl, List.zip_cons_cons, List.tail_cons] at ih ⊢
          exact List.mem_cons_of_mem _ ih

theorem yoyVal_zero_prev (q : ℚ) :
    yoyVal (.fin 0) (.fin q) =
      if q = 0 then JSNum.nan else if 0 < q then JSNum.inf true else JSNum.inf false := by
  by_cases h0 : q = 0
  · norm_num [yoyVal, JSNum.div, JSNum.sub, JSNum.add, JSNum.neg, JSNum.mul, h0]
  · by_cases hp : 0 < q
    · norm_num [yoyVal, JSNum.div, JSNum.sub, JSNum.add, JSNum.neg, JSNum.mul, h0, hp]
    · norm_num [yoyVal, JSNum.div, JSNum.sub, JSNum.add, JSNum.neg, JSNum.mul, h0, hp]

/-- C6: for every series, yoyPct emits exactly one point per consecutive pair
of points whose years are exactly one apart, valued
(current / previous - 1) * 100 in JavaScript arithmetic and dated at the
current point's date; a consecutive pair whose years differ by more than one
emits nothing, and the first point of the series never produces an output
point of its own. -/
theorem yoyPct_pairwise (points : List SeriesPoint) :
    yoyPct points = (points.zip points.tail).filterMap yoyEmit :=
  yoyPct_eq points

/-- C10: on two consecutive points whose years are one apart and whose
earlier value is 0, yoyPct still emits a point dated at the later point's
date, and its value is non-finite: NaN when the later value is also 0, a
signed infinity otherwise; the division by zero is not guarded. -/
theorem yoyPct_zero_division (l₁ l₂ : List SeriesPoint) (prev curr : SeriesPoint) (q : ℚ)
    (hy : nextYear prev curr = true)
    (hprev : prev.value = .fin 0) (hcurr : curr.value = .fin q) :
    SeriesPoint.mk curr.date
        (if q = 0 then JSNum.nan else if 0 < q then JSNum.inf true else JSNum.inf false) ∈
        yoyPct (l₁ ++ prev :: curr :: l₂) ∧
      (if q = 0 then JSNum.nan
        else if 0 < q then JSNum.inf true else JSNum.inf false).isFinite = false := by
  constructor
  · rw [yoyPct_eq]
    apply List.mem_filterMap.mpr
    refine ⟨(prev, curr), mem_zip_tail l₁ l₂ prev curr, ?_⟩
    simp [yoyEmit, hy, hprev, hcurr, yoyVal_zero_prev]
  · split_ifs <;> rfl

/-- Closed instance of yoyPct_zero_division: an annual series holding value 0
in 2019 and value 5 in 2020 yields a positive-infinity point dated 2020. -/
theorem yoyPct_zero_division_witness :
    SeriesPoint.mk (['2','0','2','0','-','1','2','-','3','1'])
        (if (5 : ℚ) = 0 then JSNum.nan
          else if 0 < (5 : ℚ) then JSNum.inf true else JSNum.inf false) ∈
        yoyPct ([] ++ SeriesPoint.mk (['2','0','1','9','-','1','2','-','3','1']) (.fin 0) ::
          SeriesPoint.mk (['2','0','2','0','-','1','2','-','3','1']) (.fin 5) :: []) ∧
      (if (5 : ℚ) = 0 then JSNum.nan
        else if 0 < (5 : ℚ) then JSNum.inf true else JSNum.inf false).isFinite = false :=
  yoyPct_zero_division [] [] _ _ 5 (by decide) rfl rfl

/-- C9: the middleware returns 401 exactly when no usable credentials are
supplied (missing header, empty header, non-Basic scheme, or empty encoded
part), 403 exactly when credentials are supplied but the decoded user or
password does not match the configured values, and forwards the request
exactly when both match. -/
theorem middleware_classify (decode : List Char → List Char)
    (envUser envPass : List Char) (auth : Option (List Char)) :
    (middleware decode envUser envPass auth = .unauthorized ↔ ¬ hasCredentials auth) ∧
    (middleware decode envUser envPass auth = .forbidden ↔
      hasCredentials auth ∧ ¬ credMatch decode envUser envPass auth) ∧
    (middleware decode envUser envPass auth = .next ↔
      hasCredentials auth ∧ credMatch decode envUser envPass auth) := by
  cases auth with
  | none => simp [middleware, hasCredentials, credMatch]
  | some a =>
      by_cases ha : a = []
      · subst ha
        simp [middleware, hasCredentials, credMatch, jsSplit, basicChars]
      · by_cases hc1 : (jsSplit ' ' a).head?.getD [] = basicChars
        · by_cases hc2 : (jsSplit ' ' a)[1]?.getD [] = []
          · simp [middleware, hasCredentials, credMatch, ha, hc1, hc2]
          · by_cases hm : (jsSplit ':' (decode ((jsSplit ' ' a)[1]?.getD []))).head?.getD [] =
                  envUser ∧
                (jsSplit ':' (decode ((jsSplit ' ' a)[1]?.getD [])))[1]? = some envPass
            · simp [middleware, hasCredentials, credMatch, ha, hc1, hc2, hm]
            · have hm' := hm
              rw [not_and_or] at hm'
              rcases hm' with hm1 | hm2
              · simp [middleware, hasCredentials, credMatch, ha, hc1, hc2, hm, hm1]
              · simp [middleware, hasCredentials, credMatch, ha, hc1, hc2, hm, hm2]
        · simp [middleware, hasCredentials, credMatch, ha, hc1]

theorem bucketLookup_addToBuckets (bs : List (List Char × List JSNum))
    (k v k') :
    bucketLookup (addToBuckets bs k v) k' =
      if k' = k then some ((bucketLookup bs k).getD [] ++ [v])
      else bucketLookup bs k' := by
  induction bs with
  | nil =>
      by_cases h : k' = k
      · simp [addToBuckets, bucketLookup, h]
      · simp [addToBuckets, bucketLookup, h, Ne.symm h]
  | cons b rest ih =>
      obtain ⟨k₀, vs₀⟩ := b
      by_cases h₀ : k₀ = k
      · subst h₀
        by_cases h : k' = k₀
        · subst h
          simp [addToBuckets, bucketLookup]
        · simp [addToBuckets, bucketLookup, h, Ne.symm h]
      · by_cases h : k' = k₀
        · subst h
          simp [addToBuckets, bucketLookup, h₀, Ne.symm h₀]
        · simp only [addToBuckets, if_neg h₀]
          have expand : ∀ tail : List (List Char × List JSNum),
              bucketLookup ((k₀, vs₀) :: tail) k' = bucketLookup tail k' := by
            intro tail
            simp [bucketLookup, List.find?_cons, Ne.symm h]
          rw [expand, expand, ih]
          by_cases hk : k' = k
          · subst hk
            by_cases hmem : k₀ = k'
            · exact absurd hmem h₀
            · simp [bucketLookup, List.find?_cons, hmem]
          · simp [hk]

theorem bucketLookup_foldl (key : SeriesPoint → List Char) :
    ∀ (ps : List SeriesPoint) (bs : List (List Char × List JSNum)) (k : List Char),
    bucketLookup (ps.foldl (fun acc p => addToBuckets acc (key p) p.value) bs) k =
      if (bucketLookup bs k).isSome = true ∨ ∃ p ∈ ps, key p = k then
        some ((bucketLookup bs k).getD [] ++
          (ps.filter (fun p => decide (key p = k))).map SeriesPoint.value)
      else none
  | [], bs, k => by
      cases h : bucketLookup bs k with
      | none => simp [h]
      | some vs => simp [h]
  | p :: ps, bs, k => by
      rw [List.foldl_cons, bucketLookup_foldl key ps, bucketLookup_addToBuckets]
      by_cases hk : k = key p
      · subst hk
        rw [if_pos rfl]
        have h1 : (some ((bucketLookup bs (key p)).getD [] ++ [p.value])).isSome = true ∨
            ∃ q ∈ ps, key q = key p := Or.inl (by simp)
        have h2 : (bucketLookup bs (key p)).isSome = true ∨ ∃ q ∈ p :: ps, key q = key p :=
          Or.inr ⟨p, List.mem_cons_self p ps, rfl⟩
        rw [if_pos h1, if_pos h2]
        simp [List.filter_cons, List.append_assoc]
      · rw [if_neg hk]
        have hiff : ((bucketLookup bs k).isSome = true ∨ ∃ q ∈ p :: ps, key q = k) ↔
            ((bucketLookup bs k).isSome = true ∨ ∃ q ∈ ps, key q = k) := by
          constructor
          · rintro (h | ⟨q, hq, hqk⟩)
            · exact Or.inl h
            · rcases List.mem_cons.mp hq with rfl | hq'
              · exact absurd hqk.symm hk
              · exact Or.inr ⟨q, hq', hqk⟩
          · rintro (h | ⟨q, hq, hqk⟩)
            · exact Or.inl h
            · exact Or.inr ⟨q, List.mem_cons_of_mem p hq, hqk⟩
        have hk' : ¬ key p = k := fun h => hk h.symm
        have hfil : (p :: ps).filter (fun q => decide (key q = k)) =
            ps.filter (fun q => decide (key q = k)) := by
          simp [List.filter_cons, hk']
        rw [hfil]
        exact if_congr hiff.symm rfl rfl

theorem bucketLookup_buildBuckets (key : SeriesPoint → List Char)
    (ps : List SeriesPoint) (k : List Char) :
    bucketLookup (buildBuckets key ps) k =
      if ∃ p ∈ ps, key p = k then
        some ((ps.filter (fun p => decide (key p = k))).map SeriesPoint.value)
      else none := by
  have h := bucketLookup_foldl key ps [] k
  simp only [buildBuckets]
  rw [h]
  simp [bucketLookup]

theorem bucketLookup_isSome_iff (bs : List (List Char × List JSNum)) (k : List Char) :
    (bucketLookup bs k).isSome = true ↔ k ∈ bs.map Prod.fst := by
  simp only [bucketLookup]
  cases hf : List.find? (fun b => decide (b.1 = k)) bs with
  | none =>
      simp only [Option.map_none', Option.isSome_none, Bool.false_eq_true, false_iff]
      intro hk
      obtain ⟨b, hb, hbk⟩ := List.mem_map.mp hk
      have hnone := List.find?_eq_none.mp hf b hb
      simp [hbk] at hnone
  | some b =>
      simp only [Option.map_some', Option.isSome_some, true_iff]
      have hb := List.mem_of_find?_eq_some hf
      have hbk := List.find?_some hf
      simp only [decide_eq_true_eq] at hbk
      exact hbk ▸ List.mem_map.mpr ⟨b, hb, rfl⟩

theorem addToBuckets_keys (bs : List (List Char × List JSNum)) (k : List Char) (v : JSNum) :
    (addToBuckets bs k v).map Prod.fst =
      if k ∈ bs.map Prod.fst then bs.map Prod.fst else bs.map Prod.fst ++ [k] := by
  induction bs with
  | nil => simp [addToBuckets]
  | cons b rest ih =>
      obtain ⟨k₀, vs₀⟩ := b
      by_cases hk : k₀ = k
      · subst hk
        simp [addToBuckets]
      · simp only [addToBuckets, if_neg hk, List.map_cons, ih]
        by_cases hm : k ∈ rest.map Prod.fst
        · simp [hm, Ne.symm hk]
        · simp [hm, Ne.symm hk]

theorem addToBuckets_keys_nodup (bs : List (List Char × List JSNum)) (k : List Char)
    (v : JSNum) (h : (bs.map Prod.fst).Nodup) :
    ((addToBuckets bs k v).map Prod.fst).Nodup := by
  rw [addToBuckets_keys]
  split_ifs with hm
  · exact h
  · simp [List.nodup_append, h, hm]

theorem foldl_buckets_keys_nodup (key : SeriesPoint → List Char) :
    ∀ (ps : List SeriesPoint) (bs : List (List Char × List JSNum)),
    (bs.map Prod.fst).Nodup →
    (((ps.foldl (fun acc p => addToBuckets acc (key p) p.value) bs)).map Prod.fst).Nodup
  | [], _, h => h
  | p :: ps, bs, h => by
      rw [List.foldl_cons]
      exact foldl_buckets_keys_nodup key ps _ (addToBuckets_keys_nodup bs (key p) p.value h)

theorem buildBuckets_keys_nodup (key : SeriesPoint → List Char) (ps : List SeriesPoint) :
    ((buildBuckets key ps).map Prod.fst).Nodup :=
  foldl_buckets_keys_nodup key ps [] List.nodup_nil

theorem mem_buckets_iff_lookup :
    ∀ (bs : List (List Char × List JSNum)), (bs.map Prod.fst).Nodup →
    ∀ (k : List Char) (vs : List JSNum),
    ((k, vs) ∈ bs ↔ bucketLookup bs k = some vs)
  | [], _, k, vs => by simp [bucketLookup]
  | (k₀, vs₀) :: rest, hnd, k, vs => by
      rw [List.map_cons, List.nodup_cons] at hnd
      obtain ⟨hk₀, hrest⟩ := hnd
      by_cases hk : k₀ = k
      · subst hk
        have hfind : bucketLookup ((k₀, vs₀) :: rest) k₀ = some vs₀ := by
          simp [bucketLookup, List.find?_cons]
        rw [hfind]
        constructor
        · intro hmem
          rcases List.mem_cons.mp hmem with heq | hmem'
          · rw [Prod.mk.injEq] at heq
            rw [heq.2]
          · exact absurd (List.mem_map.mpr ⟨(k₀, vs), hmem', rfl⟩) hk₀
        · intro h
          have hv : vs₀ = vs := Option.some.inj h
          subst hv
          exact List.mem_cons_self _ _
      · have hskip : bucketLookup ((k₀, vs₀) :: rest) k = bucketLookup rest k := by
          simp [bucketLookup, List.find?_cons, hk]
        rw [hskip, ← mem_buckets_iff_lookup rest hrest k vs]
        constructor
        · intro hmem
          rcases List.mem_cons.mp hmem with heq | hmem'
          · rw [Prod.mk.injEq] at heq
            exact absurd heq.1.symm hk
          · exact hmem'
        · exact fun h => List.mem_cons_of_mem _ h

theorem mem_buildBuckets_keys (key : SeriesPoint → List Char) (ps : List SeriesPoint)
    (k : List Char) :
    k ∈ (buildBuckets key ps).map Prod.fst ↔ ∃ p ∈ ps, key p = k := by
  rw [← bucketLookup_isSome_iff, bucketLookup_buildBuckets]
  by_cases h : ∃ p ∈ ps, key p = k
  · simp [h]
  · simp [h]

theorem nodup_bucket_dates (key : SeriesPoint → List Char) (ps : List SeriesPoint)
    (suffix : List Char) :
    (((buildBuckets key ps).map Prod.fst).map (fun k => k ++ suffix)).Nodup :=
  List.Nodup.map (fun _ _ hxy => List.append_cancel_right hxy)
    (buildBuckets_keys_nodup key ps)

/-- C5 (amended): monthly resampling always takes the final (chronologically
last) value of each year-month bucket; the average method is not available at
monthly granularity.  The output has one point per distinct year-month of
the input, dated at day 28 of that month, whose value is the value of the
last input point falling in that bucket. -/
theorem toMonthly_bucket_last (ps : List SeriesPoint) :
    ((toMonthly ps).map SeriesPoint.date).Nodup ∧
    ∀ r : SeriesPoint, r ∈ toMonthly ps ↔
      ∃ p₀ ∈ ps, r.date = p₀.date.take 7 ++ ['-', '2', '8'] ∧
        some r.value =
          ((ps.filter (fun p => decide (p.date.take 7 = p₀.date.take 7))).map
            SeriesPoint.value).getLast? := by
  have hperm : (toMonthly ps).Perm ((buildBuckets (fun p => p.date.take 7) ps).map
      (fun b => SeriesPoint.mk (b.1 ++ ['-', '2', '8']) (bucketValue Method.last b.2))) :=
    List.perm_insertionSort _ _
  constructor
  · have hnd : ((((buildBuckets (fun p => p.date.take 7) ps).map
        (fun b => SeriesPoint.mk (b.1 ++ ['-', '2', '8'])
          (bucketValue Method.last b.2)))).map SeriesPoint.date).Nodup := by
      rw [List.map_map]
      have hcomp : (SeriesPoint.date ∘ fun b : List Char × List JSNum =>
          SeriesPoint.mk (b.1 ++ ['-', '2', '8']) (bucketValue Method.last b.2)) =
          ((fun k => k ++ ['-', '2', '8']) ∘ Prod.fst) := rfl
      rw [hcomp, ← List.map_map]
      exact nodup_bucket_dates _ ps _
    exact ((hperm.map SeriesPoint.date).nodup_iff).mpr hnd
  · intro r
    rw [hperm.mem_iff, List.mem_map]
    constructor
    · rintro ⟨⟨k, vs⟩, hmem, rfl⟩
      have hlook := (mem_buckets_iff_lookup _
        (buildBuckets_keys_nodup (fun p => p.date.take 7) ps) k vs).mp hmem
      rw [bucketLookup_buildBuckets] at hlook
      by_cases hex : ∃ p ∈ ps, p.date.take 7 = k
      · rw [if_pos hex] at hlook
        obtain ⟨p₀, hp₀, hk⟩ := hex
        have hvs := (Option.some.inj hlook).symm
        subst hk
        refine ⟨p₀, hp₀, rfl, ?_⟩
        have hpmem : p₀ ∈ ps.filter (fun p => decide (p.date.take 7 = p₀.date.take 7)) :=
          List.mem_filter.mpr ⟨hp₀, by simp⟩
        have hne : (ps.filter (fun p => decide (p.date.take 7 = p₀.date.take 7))).map
            SeriesPoint.value ≠ [] := by
          intro hcon
          rw [List.map_eq_nil_iff] at hcon
          rw [hcon] at hpmem
          exact List.not_mem_nil p₀ hpmem
        obtain ⟨x, hx⟩ := Option.isSome_iff_exists.mp
          (List.getLast?_isSome.mpr hne)
        rw [hx]
        rw [hvs]
        simp only [bucketValue, List.getLastD_eq_getLast?, hx, Option.getD_some]
      · rw [if_neg hex] at hlook
        exact absurd hlook (by simp)
    · rintro ⟨p₀, hp₀, hdate, hval⟩
      have hex : ∃ p ∈ ps, p.date.take 7 = p₀.date.take 7 := ⟨p₀, hp₀, rfl⟩
      have hlook : bucketLookup (buildBuckets (fun p => p.date.take 7) ps)
          (p₀.date.take 7) =
          some ((ps.filter (fun p => decide (p.date.take 7 = p₀.date.take 7))).map
            SeriesPoint.value) := by
        rw [bucketLookup_buildBuckets, if_pos hex]
      have hmem := (mem_buckets_iff_lookup _
        (buildBuckets_keys_nodup (fun p => p.date.take 7) ps) _ _).mpr hlook
      refine ⟨_, hmem, ?_⟩
      obtain ⟨rd, rv⟩ := r
      simp only at hdate hval
      simp only [bucketValue, List.getLastD_eq_getLast?, ← hval, Option.getD_some, hdate]

/-- C5 counterexample: a January 2020 bucket holding values 1 then 3 yields
the last value 3, not the arithmetic mean 2 that the claim prescribes for
monthly resampling with the average method. -/
theorem toMonthly_not_average :
    toMonthly [SeriesPoint.mk (['2','0','2','0','-','0','1','-','0','5']) (.fin 1),
        SeriesPoint.mk (['2','0','2','0','-','0','1','-','2','0']) (.fin 3)] =
      [SeriesPoint.mk (['2','0','2','0','-','0','1','-','2','8']) (.fin 3)] ∧
      (3 : ℚ) ≠ (1 + 3) / 2 :=
  ⟨by decide, by norm_num⟩

theorem addToBuckets_notMem (bs : List (List Char × List JSNum)) (k : List Char)
    (v : JSNum) (h : k ∉ bs.map Prod.fst) : addToBuckets bs k v = bs ++ [(k, [v])] := by
  induction bs with
  | nil => rfl
  | cons b rest ih =>
      obtain ⟨k₀, vs₀⟩ := b
      simp only [List.map_cons, List.mem_cons] at h
      push_neg at h
      have hne : ¬ k₀ = k := fun he => h.1 he.symm
      simp only [addToBuckets, if_neg hne]
      rw [ih h.2, List.cons_append]

theorem foldl_buckets_fresh (key : SeriesPoint → List Char) :
    ∀ (ps : List SeriesPoint) (bs : List (List Char × List JSNum)),
    (bs.map Prod.fst ++ ps.map key).Nodup →
    ps.foldl (fun acc p => addToBuckets acc (key p) p.value) bs =
      bs ++ ps.map (fun p => (key p, [p.value]))
  | [], bs, _ => by simp
  | p :: ps, bs, h => by
      rw [List.foldl_cons]
      have hfresh : key p ∉ bs.map Prod.fst := by
        intro hmem
        obtain ⟨-, -, hdisj⟩ := List.nodup_append.mp h
        exact hdisj hmem (by simp)
      rw [addToBuckets_notMem bs (key p) p.value hfresh]
      rw [foldl_buckets_fresh key ps (bs ++ [(key p, [p.value])]) (by
        simp only [List.map_append, List.map_cons, List.map_nil] at h ⊢
        simpa [List.append_assoc] using h)]
      simp [List.append_assoc]

theorem buildBuckets_of_nodup (key : SeriesPoint → List Char) (ps : List SeriesPoint)
    (h : (ps.map key).Nodup) :
    buildBuckets key ps = ps.map (fun p => (key p, [p.value])) := by
  have hf := foldl_buckets_fresh key ps [] (by simpa using h)
  simpa [buildBuckets] using hf

theorem pointSort_sorted (l : List SeriesPoint) :
    List.Sorted (fun a b : SeriesPoint => strLe a.date b.date = true)
      (List.insertionSort (fun a b => strLe a.date b.date = true) l) := by
  haveI : IsTotal SeriesPoint (fun a b => strLe a.date b.date = true) :=
    ⟨fun a b => by
      have h := strLe_total a.date b.date
      cases hab : strLe a.date b.date with
      | true => exact Or.inl rfl
      | false =>
          right
          rw [hab] at h
          simpa using h⟩
  haveI : IsTrans SeriesPoint (fun a b => strLe a.date b.date = true) :=
    ⟨fun _ _ _ hab hbc => strLe_trans hab hbc⟩
  exact List.sorted_insertionSort _ l

/-- C8: resampling at annual granularity with method last is idempotent: a
second pass over an already annually-resampled series is the identity.  The
hypothesis records the data-model invariant that dates are full ISO strings,
at least four characters long. -/
theorem toAnnual_last_idem (ps : List SeriesPoint)
    (h : ∀ p ∈ ps, 4 ≤ p.date.length) :
    toAnnual (toAnnual ps Method.last) Method.last = toAnnual ps Method.last := by
  have hperm : (toAnnual ps Method.last).Perm
      ((buildBuckets (fun p => p.date.take 4) ps).map
        (fun b => SeriesPoint.mk (b.1 ++ ['-', '1', '2', '-', '3', '1'])
          (bucketValue Method.last b.2))) := List.perm_insertionSort _ _
  have hsorted := pointSort_sorted
    ((buildBuckets (fun p => p.date.take 4) ps).map
      (fun b => SeriesPoint.mk (b.1 ++ ['-', '1', '2', '-', '3', '1'])
        (bucketValue Method.last b.2)))
  have hE : ∀ p ∈ toAnnual ps Method.last, p.date.take 4 ++ ['-', '1', '2', '-', '3', '1'] = p.date := by
    intro p hp
    rw [hperm.mem_iff] at hp
    obtain ⟨⟨k, vs⟩, hmem, rfl⟩ := List.mem_map.mp hp
    have hkmem : k ∈ (buildBuckets (fun p => p.date.take 4) ps).map Prod.fst :=
      List.mem_map.mpr ⟨(k, vs), hmem, rfl⟩
    obtain ⟨p₀, hp₀, hk⟩ := (mem_buildBuckets_keys _ ps k).mp hkmem
    have hklen : k.length = 4 := by
      rw [← hk, List.length_take]
      exact Nat.min_eq_left (h p₀ hp₀)
    simp only [List.take_left' hklen]
  have hdnodup : ((toAnnual ps Method.last).map SeriesPoint.date).Nodup := by
    have hnd : ((((buildBuckets (fun p => p.date.take 4) ps).map
        (fun b => SeriesPoint.mk (b.1 ++ ['-', '1', '2', '-', '3', '1'])
          (bucketValue Method.last b.2)))).map SeriesPoint.date).Nodup := by
      rw [List.map_map]
      have hcomp : (SeriesPoint.date ∘ fun b : List Char × List JSNum =>
          SeriesPoint.mk (b.1 ++ ['-', '1', '2', '-', '3', '1'])
            (bucketValue Method.last b.2)) =
          ((fun k => k ++ ['-', '1', '2', '-', '3', '1']) ∘ Prod.fst) := rfl
      rw [hcomp, ← List.map_map]
      exact nodup_bucket_dates _ ps _
    exact ((hperm.map SeriesPoint.date).nodup_iff).mpr hnd
  have hknodup : ((toAnnual ps Method.last).map (fun p => p.date.take 4)).Nodup := by
    have hmapeq : (toAnnual ps Method.last).map SeriesPoint.date =
        ((toAnnual ps Method.last).map (fun p => p.date.take 4)).map
          (fun k => k ++ ['-', '1', '2', '-', '3', '1']) := by
      rw [List.map_map]
      exact (List.map_congr_left (fun p hp => (hE p hp).symm))
    rw [hmapeq] at hdnodup
    exact List.Nodup.of_map _ hdnodup
  have hsecond : buildBuckets (fun p => p.date.take 4) (toAnnual ps Method.last) =
      (toAnnual ps Method.last).map (fun p => (p.date.take 4, [p.value])) :=
    buildBuckets_of_nodup _ _ hknodup
  show List.insertionSort _ _ = _
  rw [hsecond, List.map_map]
  have hback : ((toAnnual ps Method.last).map
      ((fun b : List Char × List JSNum => SeriesPoint.mk (b.1 ++ ['-', '1', '2', '-', '3', '1'])
        (bucketValue Method.last b.2)) ∘ (fun p => (p.date.take 4, [p.value])))) =
      toAnnual ps Method.last := by
    have : ∀ p ∈ toAnnual ps Method.last,
        ((fun b : List Char × List JSNum => SeriesPoint.mk (b.1 ++ ['-', '1', '2', '-', '3', '1'])
          (bucketValue Method.last b.2)) ∘ (fun p => (p.date.take 4, [p.value]))) p = p := by
      intro p hp
      simp only [Function.comp_apply, bucketValue]
      rw [hE p hp]
      have hv : ([p.value].getLastD JSNum.nan) = p.value := rfl
      rw [hv]
    rw [List.map_congr_left this, List.map_id']
  rw [hback]
  have hsorted' : List.Sorted (fun a b : SeriesPoint => strLe a.date b.date = true)
      (toAnnual ps Method.last) := pointSort_sorted _
  exact List.Sorted.insertionSort_eq hsorted'

/-- Closed instance of toAnnual_last_idem on a two-year daily series. -/
theorem toAnnual_last_idem_witness :
    toAnnual (toAnnual [SeriesPoint.mk (['2','0','1','9','-','0','3','-','0','1']) (.fin 1),
        SeriesPoint.mk (['2','0','1','9','-','0','8','-','0','1']) (.fin 2),
        SeriesPoint.mk (['2','0','2','0','-','0','2','-','0','1']) (.fin 3)] Method.last)
      Method.last =
      toAnnual [SeriesPoint.mk (['2','0','1','9','-','0','3','-','0','1']) (.fin 1),
        SeriesPoint.mk (['2','0','1','9','-','0','8','-','0','1']) (.fin 2),
        SeriesPoint.mk (['2','0','2','0','-','0','2','-','0','1']) (.fin 3)] Method.last :=
  toAnnual_last_idem _ (by decide)

theorem mem_setDedupAux : ∀ (l seen : List (List Char)) (d : List Char),
    (d ∈ setDedupAux seen l ↔ d ∈ l ∧ d ∉ seen)
  | [], seen, d => by simp [setDedupAux]
  | x :: l, seen, d => by
      by_cases hx : x ∈ seen
      · rw [setDedupAux, if_pos hx, mem_setDedupAux l seen d]
        constructor
        · rintro ⟨hd, hs⟩
          exact ⟨List.mem_cons_of_mem _ hd, hs⟩
        · rintro ⟨hd, hs⟩
          rcases List.mem_cons.mp hd with rfl | hd'
          · exact absurd hx hs
          · exact ⟨hd', hs⟩
      · rw [setDedupAux, if_neg hx]
        constructor
        · intro hmem
          rcases List.mem_cons.mp hmem with rfl | hmem'
          · exact ⟨List.mem_cons_self _ _, hx⟩
          · obtain ⟨hd, hs⟩ := (mem_setDedupAux l (x :: seen) d).mp hmem'
            exact ⟨List.mem_cons_of_mem _ hd,
              fun hc => hs (List.mem_cons_of_mem _ hc)⟩
        · rintro ⟨hd, hs⟩
          rcases List.mem_cons.mp hd with rfl | hd'
          · exact List.mem_cons_self _ _
          · by_cases hdx : d = x
            · subst hdx
              exact List.mem_cons_self _ _
            · exact List.mem_cons_of_mem _ ((mem_setDedupAux l (x :: seen) d).mpr
                ⟨hd', by simp [List.mem_cons, hdx, hs]⟩)

theorem nodup_setDedupAux : ∀ (l seen : List (List Char)), (setDedupAux seen l).Nodup
  | [], _ => List.nodup_nil
  | x :: l, seen => by
      by_cases hx : x ∈ seen
      · rw [setDedupAux, if_pos hx]
        exact nodup_setDedupAux l seen
      · rw [setDedupAux, if_neg hx]
        refine List.nodup_cons.mpr ⟨?_, nodup_setDedupAux l (x :: seen)⟩
        intro hc
        exact ((mem_setDedupAux l (x :: seen) x).mp hc).2 (List.mem_cons_self _ _)

theorem mem_setDedup (l : List (List Char)) (d : List Char) :
    d ∈ setDedup l ↔ d ∈ l := by
  rw [setDedup, mem_setDedupAux]
  simp

theorem nodup_setDedup (l : List (List Char)) : (setDedup l).Nodup :=
  nodup_setDedupAux l []

theorem strSort_sorted (l : List (List Char)) :
    List.Sorted (fun a b => strLe a b = true)
      (List.insertionSort (fun a b => strLe a b = true) l) := by
  haveI : IsTotal (List Char) (fun a b => strLe a b = true) :=
    ⟨fun a b => by
      have h := strLe_total a b
      cases hab : strLe a b with
      | true => exact Or.inl rfl
      | false =>
          right
          rw [hab] at h
          simpa using h⟩
  haveI : IsTrans (List Char) (fun a b => strLe a b = true) :=
    ⟨fun _ _ _ hab hbc => strLe_trans hab hbc⟩
  exact List.sorted_insertionSort _ l

/-- C7: alignByDate produces one row per distinct date occurring in any input
series (the row date set is the union of all input dates), rows strictly
ascending in lexicographic date order, and each cell is the value of the
exact-date point of that series, or null (none) when no such point exists. -/
theorem alignByDate_spec (series : List (List Char × List SeriesPoint)) :
    List.Pairwise (fun a b : AlignedRow => strLt a.date b.date = true)
      (alignByDate series) ∧
    (∀ d, (∃ r ∈ alignByDate series, r.date = d) ↔
      ∃ kv ∈ series, ∃ p ∈ kv.2, p.date = d) ∧
    (∀ r ∈ alignByDate series, r.cells = series.map (fun kv =>
      (kv.1, (kv.2.find? (fun p => decide (p.date = r.date))).map SeriesPoint.value))) := by
  have hsorted := strSort_sorted
    (setDedup (((series.map Prod.snd).flatten).map SeriesPoint.date))
  have hperm := List.perm_insertionSort (fun a b => strLe a b = true)
    (setDedup (((series.map Prod.snd).flatten).map SeriesPoint.date))
  have hnd : (List.insertionSort (fun a b => strLe a b = true)
      (setDedup (((series.map Prod.snd).flatten).map SeriesPoint.date))).Nodup :=
    hperm.nodup_iff.mpr (nodup_setDedup _)
  refine ⟨?_, ?_, ?_⟩
  · rw [alignByDate, List.pairwise_map]
    exact List.Pairwise.imp (fun hab => strLt_of_le_of_ne hab.1 hab.2)
      (List.Pairwise.and hsorted hnd)
  · have key : ∀ d, (d ∈ ((series.map Prod.snd).flatten).map SeriesPoint.date ↔
        ∃ kv ∈ series, ∃ p ∈ kv.2, p.date = d) := by
      intro d
      constructor
      · intro hmem
        obtain ⟨p, hpmem, rfl⟩ := List.mem_map.mp hmem
        obtain ⟨arr, harr, hp⟩ := List.mem_flatten.mp hpmem
        obtain ⟨kv, hkv, rfl⟩ := List.mem_map.mp harr
        exact ⟨kv, hkv, p, hp, rfl⟩
      · rintro ⟨kv, hkv, p, hp, rfl⟩
        exact List.mem_map.mpr ⟨p,
          List.mem_flatten.mpr ⟨kv.2, List.mem_map.mpr ⟨kv, hkv, rfl⟩, hp⟩, rfl⟩
    intro d
    rw [alignByDate]
    constructor
    · rintro ⟨r, hr, rfl⟩
      obtain ⟨d', hd', rfl⟩ := List.mem_map.mp hr
      exact (key d').mp ((mem_setDedup _ _).mp (hperm.mem_iff.mp hd'))
    · intro hex
      have hd : d ∈ List.insertionSort (fun a b => strLe a b = true)
          (setDedup (((series.map Prod.snd).flatten).map SeriesPoint.date)) :=
        hperm.mem_iff.mpr ((mem_setDedup _ _).mpr ((key d).mpr hex))
      exact ⟨_, List.mem_map.mpr ⟨d, hd, rfl⟩, rfl⟩
  · intro r hr
    rw [alignByDate] at hr
    obtain ⟨d, hd, rfl⟩ := List.mem_map.mp hr
    rfl

theorem corrDA_full (l : List ℚ) : corrDA l l.length = centeredSS l := by
  simp [corrDA, centeredSS, sampleMean, List.take_length]

theorem corrDA_nonneg (a : List ℚ) (n : ℕ) : 0 ≤ corrDA a n := by
  apply List.sum_nonneg
  intro x hx
  obtain ⟨y, hy, rfl⟩ := List.mem_map.mp hx
  exact mul_self_nonneg _

theorem centeredSS_nonneg (l : List ℚ) : 0 ≤ centeredSS l :=
  corrDA_full l ▸ corrDA_nonneg l l.length

theorem corr_eq_none_iff (a b : List ℚ) (hlen : a.length = b.length) :
    (corr a b = none ↔ a.length < 3 ∨ centeredSS a = 0 ∨ centeredSS b = 0) := by
  have hmin : min a.length b.length = a.length := by omega
  simp only [corr, hmin]
  by_cases h3 : a.length < 3
  · simp [h3]
  · rw [if_neg h3]
    have hdb : corrDA b a.length = centeredSS b := by
      rw [hlen]
      exact corrDA_full b
    rw [corrDA_full, hdb]
    have ha0 : (0:ℚ) ≤ centeredSS a := centeredSS_nonneg a
    have hb0 : (0:ℚ) ≤ centeredSS b := centeredSS_nonneg b
    split_ifs with hden
    · simp only [true_iff]
      rw [Real.sqrt_eq_zero'] at hden
      have hprod : (centeredSS a : ℝ) * (centeredSS b : ℝ) = 0 :=
        le_antisymm hden (mul_nonneg (by exact_mod_cast ha0) (by exact_mod_cast hb0))
      rcases mul_eq_zero.mp hprod with h | h
      · exact Or.inr (Or.inl (by exact_mod_cast h))
      · exact Or.inr (Or.inr (by exact_mod_cast h))
    · apply iff_of_false
      · simp
      · rintro (h | h | h)
        · exact h3 h
        · exact hden (by rw [h]; simp)
        · exact hden (by rw [h]; simp)

theorem zip_self_map {α β : Type} (l : List α) (f : α × α → β) :
    (l.zip l).map f = l.map (fun x => f (x, x)) := by
  induction l with
  | nil => rfl
  | cons x xs ih => simp [List.zip_cons_cons, ih]

theorem corrNum_self (a : List ℚ) (n : ℕ) : corrNum a a n = corrDA a n := by
  simp only [corrNum, corrDA]
  rw [zip_self_map]

theorem corr_self (a : List ℚ) (h3 : ¬ a.length < 3) (hvar : centeredSS a ≠ 0) :
    corr a a = some 1 := by
  simp only [corr, Nat.min_self]
  rw [if_neg h3, corrDA_full]
  have hc0 : (0:ℚ) ≤ centeredSS a := centeredSS_nonneg a
  have hsqrt : Real.sqrt ((centeredSS a : ℝ) * (centeredSS a : ℝ)) = (centeredSS a : ℝ) :=
    Real.sqrt_mul_self (by exact_mod_cast hc0)
  rw [hsqrt]
  have hne : (centeredSS a : ℝ) ≠ 0 := by exact_mod_cast hvar
  rw [if_neg hne, corrNum_self, corrDA_full]
  rw [div_self hne]

theorem corrNum_comm (a b : List ℚ) (n : ℕ) : corrNum b a n = corrNum a b n := by
  simp only [corrNum]
  rw [← List.zip_swap (a.take n) (b.take n), List.map_map]
  apply congrArg
  apply List.map_congr_left
  intro xy _
  simp [Function.comp, mul_comm]

theorem corr_comm (a b : List ℚ) : corr a b = corr b a := by
  simp only [corr]
  rw [Nat.min_comm b.length a.length, corrNum_comm,
    mul_comm ((corrDA b (min a.length b.length)) : ℝ)]

theorem colVals_length (rows : List AlignedRow) (keys : List (List Char))
    (k : List Char) : (colVals rows keys k).length = (validRows rows keys).length := by
  simp [colVals]

theorem matEntry_nested (g : List ℚ → List ℚ → Option ℝ) (cols : List (List ℚ))
    (i j : ℕ) (hig : i < cols.length) (hjg : j < cols.length) :
    matEntry (cols.map (fun a => cols.map (fun b => g a b))) i j =
      g (cols.get ⟨i, hig⟩) (cols.get ⟨j, hjg⟩) := by
  rw [matEntry, List.getD_eq_getElem _ ([] : List (Option ℝ)) (by simpa using hig),
    List.getElem_map, List.getD_eq_getElem _ (none : Option ℝ) (by simpa using hjg),
    List.getElem_map]
  rfl

theorem matEntry_eq_corr (rows : List AlignedRow) (keys : List (List Char))
    (i j : ℕ) (hi : i < keys.length) (hj : j < keys.length) :
    matEntry (correlationMatrix rows keys) i j =
      corr (colVals rows keys (keys.getD i [])) (colVals rows keys (keys.getD j [])) := by
  have hig : i < (keys.map (fun k => colVals rows keys k)).length := by simpa using hi
  have hjg : j < (keys.map (fun k => colVals rows keys k)).length := by simpa using hj
  simp only [correlationMatrix]
  rw [matEntry_nested corr _ i j hig hjg]
  congr 1
  · rw [List.get_eq_getElem, List.getElem_map, List.getD_eq_getElem _ _ hi]
  · rw [List.get_eq_getElem, List.getElem_map, List.getD_eq_getElem _ _ hj]

theorem matEntry_oob (rows : List AlignedRow) (keys : List (List Char)) (i j : ℕ)
    (h : keys.length ≤ i ∨ keys.length ≤ j) :
    matEntry (correlationMatrix rows keys) i j = none := by
  simp only [correlationMatrix, matEntry]
  by_cases hi : i < keys.length
  · rcases h with h | h
    · omega
    · rw [List.getD_eq_getElem _ ([] : List (Option ℝ)) (by simpa using hi),
        List.getElem_map]
      exact List.getD_eq_default _ _ (by simpa using h)
  · rw [List.getD_eq_default _ ([] : List (Option ℝ)) (by simpa using Nat.le_of_not_lt hi)]
    simp

/-- C1: every cell (i, j) of the matrix produced by correlationMatrix is the
Pearson correlation computed over the single common row subset: the rows of
the table whose cell is a finite number for every selected key
simultaneously (validRows); no cell draws on a per-pair row subset. -/
theorem correlationMatrix_commonSubset (rows : List AlignedRow)
    (keys : List (List Char)) (i j : ℕ) (hi : i < keys.length) (hj : j < keys.length) :
    matEntry (correlationMatrix rows keys) i j =
      corr ((validRows rows keys).map (fun r => (finiteCell r (keys.getD i [])).getD 0))
        ((validRows rows keys).map (fun r => (finiteCell r (keys.getD j [])).getD 0)) :=
  matEntry_eq_corr rows keys i j hi hj

/-- Closed instance of correlationMatrix_commonSubset on a one-key table. -/
theorem correlationMatrix_commonSubset_witness :
    matEntry (correlationMatrix
      [AlignedRow.mk (['d','1']) [((['A']), some (.fin 1))],
       AlignedRow.mk (['d','2']) [((['A']), some (.fin 2))],
       AlignedRow.mk (['d','3']) [((['A']), some (.fin 4))]] [['A']]) 0 0 =
      corr ((validRows
          [AlignedRow.mk (['d','1']) [((['A']), some (.fin 1))],
           AlignedRow.mk (['d','2']) [((['A']), some (.fin 2))],
           AlignedRow.mk (['d','3']) [((['A']), some (.fin 4))]] [['A']]).map
          (fun r => (finiteCell r (([['A']] : List (List Char)).getD 0 [])).getD 0))
        ((validRows
          [AlignedRow.mk (['d','1']) [((['A']), some (.fin 1))],
           AlignedRow.mk (['d','2']) [((['A']), some (.fin 2))],
           AlignedRow.mk (['d','3']) [((['A']), some (.fin 4))]] [['A']]).map
          (fun r => (finiteCell r (([['A']] : List (List Char)).getD 0 [])).getD 0)) :=
  correlationMatrix_commonSubset _ _ 0 0 (by decide) (by decide)

/-- C2: a matrix cell is NaN (none) exactly when the common valid-sample
count is below three or the centered sum of squares of either column over
the common subset is zero; in every other case the cell holds a real number
(it is a some value by construction); the zero-variance case comes from the
explicit den = 0 guard, never from a thrown error or a zero substitute. -/
theorem correlationMatrix_nan_iff (rows : List AlignedRow) (keys : List (List Char))
    (i j : ℕ) (hi : i < keys.length) (hj : j < keys.length) :
    (matEntry (correlationMatrix rows keys) i j = none ↔
      (validRows rows keys).length < 3 ∨
      centeredSS (colVals rows keys (keys.getD i [])) = 0 ∨
      centeredSS (colVals rows keys (keys.getD j [])) = 0) := by
  rw [matEntry_eq_corr rows keys i j hi hj,
    corr_eq_none_iff _ _ (by rw [colVals_length, colVals_length]), colVals_length]

/-- Closed instance of correlationMatrix_nan_iff: on a table whose only
column is constant, the cell is NaN and the zero-variance disjunct holds. -/
theorem correlationMatrix_nan_iff_witness :
    (matEntry (correlationMatrix
      [AlignedRow.mk (['d','1']) [((['A']), some (.fin 5))],
       AlignedRow.mk (['d','2']) [((['A']), some (.fin 5))],
       AlignedRow.mk (['d','3']) [((['A']), some (.fin 5))]] [['A']]) 0 0 = none ↔
      (validRows
        [AlignedRow.mk (['d','1']) [((['A']), some (.fin 5))],
         AlignedRow.mk (['d','2']) [((['A']), some (.fin 5))],
         AlignedRow.mk (['d','3']) [((['A']), some (.fin 5))]] [['A']]).length < 3 ∨
      centeredSS (colVals
        [AlignedRow.mk (['d','1']) [((['A']), some (.fin 5))],
         AlignedRow.mk (['d','2']) [((['A']), some (.fin 5))],
         AlignedRow.mk (['d','3']) [((['A']), some (.fin 5))]] [['A']]
        (([['A']] : List (List Char)).getD 0 [])) = 0 ∨
      centeredSS (colVals
        [AlignedRow.mk (['d','1']) [((['A']), some (.fin 5))],
         AlignedRow.mk (['d','2']) [((['A']), some (.fin 5))],
         AlignedRow.mk (['d','3']) [((['A']), some (.fin 5))]] [['A']]
        (([['A']] : List (List Char)).getD 0 [])) = 0) :=
  correlationMatrix_nan_iff _ _ 0 0 (by decide) (by decide)

/-- C3: the correlation matrix is symmetric: matrix[i][j] equals
matrix[j][i] for all indices, two NaN (none) cells counting as equal. -/
theorem correlationMatrix_symm (rows : List AlignedRow) (keys : List (List Char))
    (i j : ℕ) :
    matEntry (correlationMatrix rows keys) i j =
      matEntry (correlationMatrix rows keys) j i := by
  by_cases hi : i < keys.length
  · by_cases hj : j < keys.length
    · rw [matEntry_eq_corr rows keys i j hi hj, matEntry_eq_corr rows keys j i hj hi,
        corr_comm]
    · rw [matEntry_oob rows keys i j (Or.inr (Nat.le_of_not_lt hj)),
        matEntry_oob rows keys j i (Or.inl (Nat.le_of_not_lt hj))]
  · rw [matEntry_oob rows keys i j (Or.inl (Nat.le_of_not_lt hi)),
      matEntry_oob rows keys j i (Or.inr (Nat.le_of_not_lt hi))]

/-- C4 (amended): the diagonal entry equals 1 when the column has at least
three valid points over the common filtered subset AND a nonzero centered
sum of squares there (a constant column yields NaN under the den = 0
guard instead). -/
theorem correlationMatrix_diag_one (rows : List AlignedRow) (keys : List (List Char))
    (i : ℕ) (hi : i < keys.length) (h3 : 3 ≤ (validRows rows keys).length)
    (hvar : centeredSS (colVals rows keys (keys.getD i [])) ≠ 0) :
    matEntry (correlationMatrix rows keys) i i = some 1 := by
  rw [matEntry_eq_corr rows keys i i hi hi]
  apply corr_self
  · rw [colVals_length]
    omega
  · exact hvar

/-- Closed instance of correlationMatrix_diag_one on a non-constant
three-row column. -/
theorem correlationMatrix_diag_one_witness :
    matEntry (correlationMatrix
      [AlignedRow.mk (['d','1']) [((['A']), some (.fin 1))],
       AlignedRow.mk (['d','2']) [((['A']), some (.fin 2))],
       AlignedRow.mk (['d','3']) [((['A']), some (.fin 4))]] [['A']]) 0 0 = some 1 :=
  correlationMatrix_diag_one _ _ 0 (by decide) (by decide) (by
    rw [show colVals
        [AlignedRow.mk (['d','1']) [((['A']), some (.fin 1))],
         AlignedRow.mk (['d','2']) [((['A']), some (.fin 2))],
         AlignedRow.mk (['d','3']) [((['A']), some (.fin 4))]] [['A']]
        (([['A']] : List (List Char)).getD 0 []) = [1, 2, 4] from by decide]
    norm_num [centeredSS])

/-- C4 counterexample: a table whose only column holds the constant 5 on
three valid rows has at least three valid points, yet its diagonal cell is
NaN (none), not 1. -/
theorem correlationMatrix_diag_constant_nan :
    (validRows
      [AlignedRow.mk (['d','1']) [((['A']), some (.fin 5))],
       AlignedRow.mk (['d','2']) [((['A']), some (.fin 5))],
       AlignedRow.mk (['d','3']) [((['A']), some (.fin 5))]] [['A']]).length = 3 ∧
    matEntry (correlationMatrix
      [AlignedRow.mk (['d','1']) [((['A']), some (.fin 5))],
       AlignedRow.mk (['d','2']) [((['A']), some (.fin 5))],
       AlignedRow.mk (['d','3']) [((['A']), some (.fin 5))]] [['A']]) 0 0 = none ∧
    (none : Option ℝ) ≠ some 1 := by
  refine ⟨by decide, ?_, by simp⟩
  rw [matEntry_eq_corr _ _ 0 0 (by decide) (by decide)]
  have hcol : colVals
      [AlignedRow.mk (['d','1']) [((['A']), some (.fin 5))],
       AlignedRow.mk (['d','2']) [((['A']), some (.fin 5))],
       AlignedRow.mk (['d','3']) [((['A']), some (.fin 5))]] [['A']]
      (([['A']] : List (List Char)).getD 0 []) = [5, 5, 5] := by decide
  rw [hcol, corr_eq_none_iff _ _ rfl]
  right
  left
  norm_num [centeredSS]

end HyperCrypto
